import Mathlib

/-!
Verification of the clinvoice ledger-parsing and invoice-aggregation core.

Shallow embedding notes:
* Rust strings are modelled as `List Char`; UTF-8 byte-lexicographic order on
  Rust `String` coincides with code-point lexicographic order, i.e. with
  Lean's `String` order.
* Rust `f32` / `f64` arithmetic is modelled over `ℚ`.  The main aggregation
  model (`aggregate` below) uses exact rational arithmetic; every value
  appearing in the claims it serves is exactly representable and the float
  operations on them are exact.  A dedicated model with explicit IEEE-754
  round-to-nearest-even rounding (`roundF32` / `roundF64`) is used where a
  claim is specifically about the f32/f64 distinction.
* `src/src/data.rs` in the source tree is a stale module (a `struct Entry`
  and a `parse_entry` that rejects negative hours); it cannot compile
  against `src/src/parse.rs`, `src/src/generate.rs` and the test suite,
  which use the current `Entry` enum and the two-argument
  `TimeData::new(directory, selector)`.  The current ledger-store loader is
  therefore modelled from the spec (sections 4.1, 4.3, 4.4), corroborated by
  `tests/data_tests.rs`; all other functions are translated from the source.
-/

namespace CLInvoice

/-- Rust `Result<T, String>` (decidable equality lets concrete runs be
checked by evaluation). -/
inductive PRes (α : Type) where
  | ok (val : α)
  | error (msg : String)
  deriving DecidableEq, Repr

/-- True exactly on the error case. -/
def isErr {α : Type} : PRes α → Bool
  | .ok _ => false
  | .error _ => true

/-! ## Kernel-computable rational arithmetic

The library's `Rat.add`, `Rat.sub`, `Rat.mul` and `Rat.inv` are
irreducible, so the embedding uses these equal, reducible forms built on
`mkRat`; the `qAdd_eq`-family lemmas below identify them with the
standard operations for symbolic reasoning. -/

def qAdd (a b : ℚ) : ℚ :=
  mkRat (a.num * (b.den : ℤ) + b.num * (a.den : ℤ)) (a.den * b.den)

def qSub (a b : ℚ) : ℚ := qAdd a (-b)

def qMul (a b : ℚ) : ℚ :=
  mkRat (a.num * b.num) (a.den * b.den)

def qInv (a : ℚ) : ℚ :=
  mkRat (Int.sign a.num * (a.den : ℤ)) a.num.natAbs

def qDiv (a b : ℚ) : ℚ := qMul a (qInv b)

/-! ## Character and string primitives (Rust `str` operations on `List Char`) -/

/-- ASCII whitespace recognizer; models the characters `str::trim` removes
for the ASCII inputs this grammar deals in. -/
def isWs (c : Char) : Bool :=
  c = ' ' || c = '\t' || c = '\n' || c = '\r'

/-- Model of Rust `str::trim` (leading and trailing whitespace removed). -/
def trimC (l : List Char) : List Char :=
  ((l.dropWhile isWs).reverse.dropWhile isWs).reverse

/-- Model of Rust `str::split(sep)`: splits at every occurrence of `sep`;
an empty input yields one empty part, `n` separators yield `n+1` parts. -/
def splitCh (sep : Char) : List Char → List (List Char)
  | [] => [[]]
  | x :: xs =>
    match splitCh sep xs with
    | [] => [[x]]
    | p :: ps => if x = sep then [] :: p :: ps else (x :: p) :: ps

/-- Model of Rust `str::split_once(sep)`: splits at the first occurrence
of `sep`, or returns `none` when `sep` does not occur. -/
def splitOnceCh (sep : Char) : List Char → Option (List Char × List Char)
  | [] => none
  | x :: xs =>
    if x = sep then some ([], xs)
    else
      match splitOnceCh sep xs with
      | some (a, b) => some (x :: a, b)
      | none => none

/-- Model of Rust `str::ends_with(c)`. -/
def endsWithCh (c : Char) (l : List Char) : Bool :=
  match l.getLast? with
  | some x => x = c
  | none => false

/-- Model of Rust `str::trim_end_matches(c)`: removes every trailing
occurrence of `c`. -/
def dropTrailingCh (c : Char) (l : List Char) : List Char :=
  (l.reverse.dropWhile (fun x => x = c)).reverse

/-- Model of Rust `str::trim_start_matches(c)`: removes every leading
occurrence of `c`. -/
def dropLeadingCh (c : Char) (l : List Char) : List Char :=
  l.dropWhile (fun x => x = c)

/-- Model of Rust `str::trim_start_matches("-$")`: repeatedly strips the
two-character pattern from the front. -/
def dropLeadingNegDollar : List Char → List Char
  | '-' :: '$' :: rest => dropLeadingNegDollar rest
  | l => l

/-! ## Number parsing (Rust `from_str` for the shapes this grammar uses) -/

/-- Decimal digit accumulation. -/
def digitsToNat (l : List Char) : ℕ :=
  l.foldl (fun a c => a * 10 + (c.toNat - 48)) 0

/-- A nonempty all-digit token, or `none`. -/
def parseNatDigits (l : List Char) : Option ℕ :=
  if l ≠ [] ∧ l.all Char.isDigit then some (digitsToNat l) else none

/-- Model of Rust `u32::from_str`: optional `+`, digits, range check
(overflow is an error). -/
def parseU32 (l : List Char) : Option ℕ :=
  match parseNatDigits (match l with | '+' :: r => r | _ => l) with
  | some n => if n < 2 ^ 32 then some n else none
  | none => none

/-- Model of Rust `i32::from_str`: optional sign, digits, range check
(overflow is an error). -/
def parseI32 (l : List Char) : Option ℤ :=
  match l with
  | '-' :: r =>
    match parseNatDigits r with
    | some n => if (n : ℤ) ≤ 2 ^ 31 then some (-(n : ℤ)) else none
    | none => none
  | '+' :: r =>
    match parseNatDigits r with
    | some n => if (n : ℤ) < 2 ^ 31 then some (n : ℤ) else none
    | none => none
  | _ =>
    match parseNatDigits l with
    | some n => if (n : ℤ) < 2 ^ 31 then some (n : ℤ) else none
    | none => none

/-- Model of the decimal subset of Rust `f32::from_str` used by the ledger
grammar: optional sign, then `digits`, `digits.digits`, `digits.` or
`.digits`.  The value is returned exactly as a rational (the grammar's
claims only involve values on which `f32` arithmetic is exact; exponent
forms, `inf` and `nan` are outside the modelled subset). -/
def parseDecimal (l : List Char) : Option ℚ :=
  let unsigned : List Char → Option ℚ := fun l2 =>
    let intPart := l2.takeWhile Char.isDigit
    let rest := l2.drop intPart.length
    match rest with
    | [] => if intPart = [] then none else some ((digitsToNat intPart : ℤ) : ℚ)
    | '.' :: frac =>
      if frac.all Char.isDigit ∧ (intPart ≠ [] ∨ frac ≠ []) then
        some (mkRat ((digitsToNat intPart : ℤ) * (10 : ℤ) ^ frac.length +
          (digitsToNat frac : ℤ)) (10 ^ frac.length))
      else none
    | _ => none
  match l with
  | '-' :: r => (unsigned r).map Neg.neg
  | '+' :: r => unsigned r
  | _ => unsigned l

/-! ## Calendar model (`chrono::NaiveDate` as used by the code) -/

/-- Proleptic Gregorian leap-year rule (chrono). -/
def isLeapYear (y : ℤ) : Bool :=
  y % 4 = 0 && (y % 100 ≠ 0 || y % 400 = 0)

/-- Days in a month; `0` for an out-of-range month number. -/
def daysInMonth (y : ℤ) (m : ℕ) : ℕ :=
  match m with
  | 1 => 31
  | 2 => if isLeapYear y then 29 else 28
  | 3 => 31
  | 4 => 30
  | 5 => 31
  | 6 => 30
  | 7 => 31
  | 8 => 31
  | 9 => 30
  | 10 => 31
  | 11 => 30
  | 12 => 31
  | _ => 0

/-- chrono's supported year range (`i32::MIN >> 13` to `i32::MAX >> 13`). -/
def minYear : ℤ := -262144

def maxYear : ℤ := 262143

structure Date where
  y : ℤ
  m : ℕ
  d : ℕ
  deriving DecidableEq, Repr

/-- Model of `NaiveDate::from_ymd_opt`: validates month, day-of-month
(including leap February) and chrono's year range. -/
def fromYmd? (y : ℤ) (m d : ℕ) : Option Date :=
  if minYear ≤ y ∧ y ≤ maxYear ∧ 1 ≤ m ∧ m ≤ 12 ∧ 1 ≤ d ∧ d ≤ daysInMonth y m
  then some ⟨y, m, d⟩ else none

/-- Model of `NaiveDate::pred_opt().unwrap()` (previous calendar day); the
source only calls it on the first of a month ≥ 2, far from chrono's
minimum date, so the partiality of `pred_opt` never fires. -/
def predDate (dt : Date) : Date :=
  if 1 < dt.d then ⟨dt.y, dt.m, dt.d - 1⟩
  else if 1 < dt.m then ⟨dt.y, dt.m - 1, daysInMonth dt.y (dt.m - 1)⟩
  else ⟨dt.y - 1, 12, 31⟩

/-- `parse.rs::last_day_of_month`: December is special-cased; otherwise the
first of the next month minus one day. -/
def lastDayOfMonth (y : ℤ) (m : ℕ) : Date :=
  if m = 12 then ⟨y, 12, 31⟩
  else predDate ⟨y, m + 1, 1⟩

/-- Lexicographic strict order on dates (`NaiveDate`'s `Ord`). -/
def dateLtB (a b : Date) : Bool :=
  decide (a.y < b.y) ||
    (decide (a.y = b.y) &&
      (decide (a.m < b.m) || (decide (a.m = b.m) && decide (a.d < b.d))))

def dateLeB (a b : Date) : Bool :=
  dateLtB a b || decide (a = b)

structure DateRange where
  start : Date
  stop : Date
  deriving DecidableEq, Repr

/-! ## Date range language (`parse.rs`) -/

/-- `parse.rs::parse_specifier_to_range`: splits on `.`;
1 part = year, 2 parts = year.month, 3 parts = year.month.day. -/
def parseSpecifierToRange (l : List Char) : PRes DateRange :=
  match splitCh '.' l with
  | [p1] =>
    match parseI32 p1 with
    | none => .error "Invalid year"
    | some y =>
      match fromYmd? y 1 1 with
      | none => .error "Invalid date"
      | some s =>
        match fromYmd? y 12 31 with
        | none => .error "Invalid date"
        | some e => .ok ⟨s, e⟩
  | [p1, p2] =>
    match parseI32 p1 with
    | none => .error "Invalid year"
    | some y =>
      match parseU32 p2 with
      | none => .error "Invalid month"
      | some m =>
        if ¬ (1 ≤ m ∧ m ≤ 12) then .error "Month out of range"
        else
          match fromYmd? y m 1 with
          | none => .error "Invalid date"
          | some s => .ok ⟨s, lastDayOfMonth y m⟩
  | [p1, p2, p3] =>
    match parseI32 p1 with
    | none => .error "Invalid year"
    | some y =>
      match parseU32 p2 with
      | none => .error "Invalid month"
      | some m =>
        match parseU32 p3 with
        | none => .error "Invalid day"
        | some d =>
          match fromYmd? y m d with
          | none => .error "Invalid date"
          | some dt => .ok ⟨dt, dt⟩
  | _ => .error "Invalid date specifier"

/-- `parse.rs::parse_date_arg`: a `-` splits the argument at its first
occurrence into two specifier ranges, combined as
`{start: left.start, end: right.end}` with a start-after-end check;
without `-` the argument is a single specifier. -/
def parseDateArg (l : List Char) : PRes DateRange :=
  match splitOnceCh '-' l with
  | some (a, b) =>
    match parseSpecifierToRange a with
    | .error e => .error e
    | .ok ra =>
      match parseSpecifierToRange b with
      | .error e => .error e
      | .ok rb =>
        if dateLtB rb.stop ra.start then .error "Start date after end date"
        else .ok ⟨ra.start, rb.stop⟩
  | none => parseSpecifierToRange l

/-! ## Time-of-day parsing (`chrono::NaiveTime` via `"%H:%M"`) -/

/-- Model of `NaiveTime::parse_from_str(s, "%H:%M")`, returning minutes
since midnight: one or two hour digits (value 0..=23), a literal `:`,
one or two minute digits (value 0..=59), end of input. -/
def parseTimeHM (l : List Char) : Option ℕ :=
  let hd := (l.takeWhile Char.isDigit).take 2
  let rest := l.drop hd.length
  if hd = [] then none
  else
    let h := digitsToNat hd
    if h ≥ 24 then none
    else
      match rest with
      | ':' :: rest2 =>
        let md := (rest2.takeWhile Char.isDigit).take 2
        let rest3 := rest2.drop md.length
        if md = [] then none
        else
          let m := digitsToNat md
          if m ≥ 60 then none
          else if rest3 = [] then some (60 * h + m) else none
      | _ => none

/-! ## Entry grammar (`parse.rs`) -/

inductive Entry where
  | Time (hours : ℚ) (desc : String)
  | FixedCost (amount : ℚ) (desc : String)
  | Note (text : String)
  deriving DecidableEq, Repr

/-- `parse.rs::parse_time_spec`.  `"<number>h"` is literal signed hours;
`"<start>-<end>"` is a time range in minutes divided by 60, where an end
of literally `"24"` or `"24:00"` is end-of-day midnight and a negative
raw difference in that case wraps by adding 24 hours. -/
def parseTimeSpec (l0 : List Char) : PRes ℚ :=
  let l := trimC l0
  if endsWithCh 'h' l then
    match parseDecimal (dropTrailingCh 'h' l) with
    | some q => .ok q
    | none => .error "Invalid hour format"
  else if l.contains '-' then
    match (splitCh '-' l).map trimC with
    | [s0, e0] =>
      let s1 := if s0.contains ':' then s0 else s0 ++ [':', '0', '0']
      let pr : List Char × Bool :=
        if e0.contains ':' then (e0, e0 = ['2', '4', ':', '0', '0'])
        else (e0 ++ [':', '0', '0'], e0 = ['2', '4'])
      match parseTimeHM s1 with
      | none => .error "Invalid start time"
      | some sMin =>
        match (if pr.2 then some 0 else parseTimeHM pr.1) with
        | none => .error "Invalid end time"
        | some eMin =>
          let dur : ℤ := (eMin : ℤ) - (sMin : ℤ)
          if dur < 0 then
            if pr.2 then .ok (qDiv ((((1440 : ℤ) + dur : ℤ)) : ℚ) 60)
            else .error "End time before start time"
          else .ok (qDiv ((dur : ℤ) : ℚ) 60)
    | _ => .error "Time range must have exactly two parts"
  else .error "Invalid time specification format"

/-- Left fold summing parsed time specs, propagating the first error
(the `for` loop with `?` in `parse_line`). -/
def sumTimeSpecs : List (List Char) → ℚ → PRes ℚ
  | [], acc => .ok acc
  | s :: rest, acc =>
    match parseTimeSpec s with
    | .error e => .error e
    | .ok h => sumTimeSpecs rest (qAdd acc h)

/-- `parse.rs::parse_line`: notes (`-`/`*` lines without a `-...=` shape),
fixed costs (`$`/`-$`), and comma-separated time specs summed into a
`Time` entry. -/
def parseLine (l0 : List Char) : PRes Entry :=
  let l := trimC l0
  let proceed : List Char → PRes Entry := fun l2 =>
    match splitOnceCh '=' l2 with
    | none => .error "Entry must have exactly two parts: value and description"
    | some (lhs, rhs) =>
      let vp := trimC lhs
      let desc := String.mk (trimC rhs)
      if ['$'].isPrefixOf vp then
        match parseDecimal (dropLeadingCh '$' vp) with
        | some c => .ok (.FixedCost c desc)
        | none => .error "Invalid cost format"
      else if ['-', '$'].isPrefixOf vp then
        match parseDecimal (dropLeadingNegDollar vp) with
        | some c => .ok (.FixedCost (-c) desc)
        | none => .error "Invalid cost format"
      else
        let specs := (splitCh ',' vp).map trimC
        if specs = [] then .error "No time specifications provided"
        else
          match sumTimeSpecs specs 0 with
          | .ok h => .ok (.Time h desc)
          | .error e => .error e
  match l with
  | c :: rest =>
    if c = '-' ∨ c = '*' then
      if c = '-' ∧ rest.contains '=' then proceed l
      else .ok (.Note (String.mk (trimC rest)))
    else proceed l
  | [] => proceed []

/-! ## Date-line recognition (`parse_date`, three formats) -/

/-- One numeric field of at most two digits followed by the rest. -/
def takeTwoDigits (l : List Char) : List Char × List Char :=
  let ds := (l.takeWhile Char.isDigit).take 2
  (ds, l.drop ds.length)

/-- `"%Y<sep>%m<sep>%d"` with a one-character separator: greedy year
digits (optional leading minus), separator, 1-2 digit month, separator,
1-2 digit day, end of input, then calendar validation. -/
def parseDateSep (sep : Char) (l : List Char) : Option Date :=
  let pr : Bool × List Char :=
    match l with
    | '-' :: r => (true, r)
    | _ => (false, l)
  let ys := pr.2.takeWhile Char.isDigit
  let rest := pr.2.drop ys.length
  if ys = [] then none
  else
    let y : ℤ := if pr.1 then -(digitsToNat ys : ℤ) else (digitsToNat ys : ℤ)
    match rest with
    | c1 :: rest1 =>
      if c1 = sep then
        let (ms, rest2) := takeTwoDigits rest1
        if ms = [] then none
        else
          match rest2 with
          | c2 :: rest3 =>
            if c2 = sep then
              let (ds, rest4) := takeTwoDigits rest3
              if ds = [] ∨ rest4 ≠ [] then none
              else fromYmd? y (digitsToNat ms) (digitsToNat ds)
            else none
          | [] => none
      else none
    | [] => none

/-- `"%Y%m%d"`: four year digits, two month digits, two day digits
(the digit widths chrono uses for this all-numeric format). -/
def parseDateCompact (l : List Char) : Option Date :=
  match l with
  | [y1, y2, y3, y4, m1, m2, d1, d2] =>
    if [y1, y2, y3, y4, m1, m2, d1, d2].all Char.isDigit then
      fromYmd? (digitsToNat [y1, y2, y3, y4] : ℤ)
        (digitsToNat [m1, m2]) (digitsToNat [d1, d2])
    else none
  | _ => none

/-- `parse.rs::parse_date`: the three formats tried in order. -/
def parseDate (l : List Char) : Option Date :=
  match parseDateSep '.' l with
  | some d => some d
  | none =>
    match parseDateCompact l with
    | some d => some d
    | none => parseDateSep '-' l

/-! ## Date selector and ledger store -/

structure DateSelector where
  ranges : List DateRange
  deriving DecidableEq, Repr

/-- Modelled from the spec: `selected(date)` is true iff the selector is
empty or any contained range covers `date` (spec section 4.3; the current
`data.rs` implementing `DateSelector` is absent from the source tree). -/
def selected (sel : DateSelector) (d : Date) : Bool :=
  sel.ranges.isEmpty ||
    sel.ranges.any (fun r => dateLeB r.start d && dateLeB d r.stop)

inductive Warning where
  | expectedDate (line : String)
  | parseError (msg : String) (line : String)
  deriving DecidableEq, Repr

structure LoadState where
  currentDate : Option Date
  buckets : List (Date × List Entry)
  warnings : List Warning
  deriving DecidableEq, Repr

/-- Append an entry to a date's bucket, creating the bucket at the end on
first use (per-date insertion order preserved). -/
def pushBucket (bs : List (Date × List Entry)) (d : Date) (e : Entry) :
    List (Date × List Entry) :=
  match bs with
  | [] => [(d, [e])]
  | (d2, es) :: rest =>
    if d2 = d then (d2, es ++ [e]) :: rest
    else (d2, es) :: pushBucket rest d e

/-- A line that is skipped before reaching any parser: empty after
trimming, or starting with `#` or `//` (spec section 4.1). -/
def isSkippableLine (l : List Char) : Bool :=
  let t := trimC l
  t.isEmpty || ['#'].isPrefixOf t || ['/', '/'].isPrefixOf t

/-- Modelled from the spec: one step of the ledger-store line scan of the
current `TimeData::new` (absent from the source tree; spec sections 4.1
and 4.4, corroborated by `tests/data_tests.rs`): skip blank/comment
lines, otherwise try the date parser and update the current date, else
parse an entry under the current date (dropping it when the selector
rejects the date, warning on parse failure), else warn that a date was
expected. -/
def loadStep (sel : DateSelector) (st : LoadState) (line : List Char) :
    LoadState :=
  let t := trimC line
  if isSkippableLine line then st
  else
    match parseDate t with
    | some d => { st with currentDate := some d }
    | none =>
      match st.currentDate with
      | some d =>
        match parseLine t with
        | .ok e =>
          if selected sel d then { st with buckets := pushBucket st.buckets d e }
          else st
        | .error msg =>
          { st with warnings := st.warnings ++ [.parseError msg (String.mk t)] }
      | none =>
        { st with warnings := st.warnings ++ [.expectedDate (String.mk t)] }

/-- Modelled from the spec: scanning the lines of one ledger file with no
current date established initially. -/
def loadLines (sel : DateSelector) (lines : List (List Char)) : LoadState :=
  lines.foldl (loadStep sel) ⟨none, [], []⟩

/-! ## Generic insertion sort (model of `slice::sort` for the orders used) -/

def insertLe {α : Type _} (le : α → α → Bool) (x : α) : List α → List α
  | [] => [x]
  | y :: ys => if le x y then x :: y :: ys else y :: insertLe le x ys

def sortLe {α : Type _} (le : α → α → Bool) : List α → List α
  | [] => []
  | x :: xs => insertLe le x (sortLe le xs)

/-- Order on store pairs by date (the code sorts the map's keys). -/
def pairDateLeB (a b : Date × List Entry) : Bool :=
  dateLeB a.1 b.1

/-! ## Invoice aggregation (`generate.rs::run`, lines 226-348) -/

structure Config where
  hourlyRate : ℚ
  capDay : ℚ
  capInvoice : ℚ
  taxPercent : ℚ

/-- Rust `{}` formatting of an `f64`, modelled for the integral values the
claims exercise: an integral float prints with no decimal point.
Non-integral shortest-round-trip rendering is outside the modelled
subset and falls back to the rational's own rendering. -/
def fmtF64 (q : ℚ) : String :=
  if q.den = 1 then toString q.num else toString q

structure ScanAcc where
  hours : ℚ
  fees : ℚ
  discounts : ℚ
  descs : List String
  deriving DecidableEq, Repr

/-- The per-day entry loop: sum `Time` hours, split `FixedCost` into fees
(positive) and discounts (otherwise), collect all descriptions in entry
order. -/
def dayScan (entries : List Entry) : ScanAcc :=
  entries.foldl
    (fun acc e =>
      match e with
      | .Time h d => { acc with hours := qAdd acc.hours h, descs := acc.descs ++ [d] }
      | .FixedCost c d =>
        if 0 < c then { acc with fees := qAdd acc.fees c, descs := acc.descs ++ [d] }
        else { acc with discounts := qAdd acc.discounts c, descs := acc.descs ++ [d] }
      | .Note n => { acc with descs := acc.descs ++ [n] })
    ⟨0, 0, 0, []⟩

structure DayOut where
  worked : ℚ
  billed : ℚ
  fees : ℚ
  discounts : ℚ
  desc : String
  deriving DecidableEq, Repr

/-- Per-day capping: when a positive per-day cap is exceeded by a positive
worked total, the billed hours become the cap and the description is
annotated with the worked and billed figures. -/
def processDay (capDay : ℚ) (entries : List Entry) : DayOut :=
  let a := dayScan entries
  let descText := String.intercalate "; " a.descs
  if 0 < capDay ∧ 0 < a.hours ∧ capDay < a.hours then
    ⟨a.hours, capDay, a.fees, a.discounts,
      descText ++ " (" ++ fmtF64 a.hours ++ " worked, " ++ fmtF64 capDay ++ " billed)"⟩
  else
    ⟨a.hours, a.hours, a.fees, a.discounts, descText⟩

structure DayRow where
  date : Date
  hours : ℚ
  cost : ℚ
  desc : String
  deriving DecidableEq, Repr

structure FoldAcc where
  worked : ℚ
  counted : ℚ
  fees : ℚ
  discounts : ℚ
  days : List DayRow
  deriving DecidableEq, Repr

/-- One day of the main aggregation loop. -/
def dayStepAcc (cfg : Config) (acc : FoldAcc) (p : Date × List Entry) : FoldAcc :=
  let o := processDay cfg.capDay p.2
  { worked := qAdd acc.worked o.worked
    counted := qAdd acc.counted o.billed
    fees := qAdd acc.fees o.fees
    discounts := qAdd acc.discounts o.discounts
    days := acc.days ++ [⟨p.1, o.billed, qMul o.billed cfg.hourlyRate, o.desc⟩] }

/-- The aggregation loop over dates sorted ascending. -/
def foldDays (cfg : Config) (store : List (Date × List Entry)) : FoldAcc :=
  (sortLe pairDateLeB store).foldl (dayStepAcc cfg) ⟨0, 0, 0, 0, []⟩

structure InvoiceTotals where
  totalHoursWorked : ℚ
  totalHoursCounted : ℚ
  totalFees : ℚ
  totalDiscounts : ℚ
  countedAmount : ℚ
  overageHours : ℚ
  overageDiscount : ℚ
  totalHoursBilled : ℚ
  billedAmount : ℚ
  subtotalAmount : ℚ
  taxAmount : ℚ
  totalAmount : ℚ
  days : List DayRow
  deriving DecidableEq, Repr

/-- The invoice-level figures computed after the day loop
(`generate.rs` lines 311-344). -/
def mkTotals (cfg : Config) (acc : FoldAcc) : InvoiceTotals :=
  let countedAmount := qMul acc.counted cfg.hourlyRate
  let overH : ℚ :=
    if 0 < cfg.capInvoice ∧ cfg.capInvoice < acc.counted then
      qSub acc.counted cfg.capInvoice
    else 0
  let overD : ℚ :=
    if 0 < cfg.capInvoice ∧ cfg.capInvoice < acc.counted then
      -(qMul (qSub acc.counted cfg.capInvoice) cfg.hourlyRate)
    else 0
  let billedH := qSub acc.counted overH
  let billedAmount := qMul billedH cfg.hourlyRate
  let subtotal := qAdd (qAdd billedAmount acc.fees) acc.discounts
  let tax := qDiv (qMul subtotal cfg.taxPercent) 100
  { totalHoursWorked := acc.worked
    totalHoursCounted := acc.counted
    totalFees := acc.fees
    totalDiscounts := acc.discounts
    countedAmount := countedAmount
    overageHours := overH
    overageDiscount := overD
    totalHoursBilled := billedH
    billedAmount := billedAmount
    subtotalAmount := subtotal
    taxAmount := tax
    totalAmount := qAdd subtotal tax
    days := acc.days }

/-- The whole aggregation: day loop then invoice-level figures.  Exact
rational arithmetic stands in for the source's f32/f64 hour and amount
arithmetic (see the float model note above). -/
def aggregate (cfg : Config) (store : List (Date × List Entry)) : InvoiceTotals :=
  mkTotals cfg (foldDays cfg store)

/-! ## Sequence index (`index.rs`) -/

/-- Byte-lexicographic order on strings (Rust `String`'s `Ord`; UTF-8 byte
order coincides with code-point order). -/
def strLeB (a b : String) : Bool :=
  decide (a ≤ b)

/-- Sorting a date list (`Vec<String>::sort`). -/
def sortStrs (l : List String) : List String :=
  sortLe strLeB l

structure SeqIndex where
  sequences : List (ℕ × List String)
  deriving DecidableEq, Repr

/-- `keys().max()` over the in-memory map. -/
def keyMax : List (ℕ × List String) → Option ℕ
  | [] => none
  | (k, _) :: rest =>
    match keyMax rest with
    | none => some k
    | some m => some (max k m)

/-- `keys().max().map_or(1, |&m| m + 1)`. -/
def nextSeq (l : List (ℕ × List String)) : ℕ :=
  match keyMax l with
  | none => 1
  | some m => m + 1

/-- `index.rs::find_sequence`: sort the input dates, scan the stored
mappings comparing each stored date list after sorting it, return the
first match's number; otherwise allocate `max(existing keys) + 1` (or 1)
and record the sorted list under it.  The in-memory `HashMap` is
modelled as an association list scanned in insertion order (one fixed
iteration order of the map). -/
def findSequence (idx : SeqIndex) (dates : List String) : ℕ × SeqIndex :=
  let sorted := sortStrs dates
  match idx.sequences.find? (fun p => decide (sortStrs p.2 = sorted)) with
  | some p => (p.1, idx)
  | none =>
    (nextSeq idx.sequences, ⟨idx.sequences ++ [(nextSeq idx.sequences, sorted)]⟩)

/-! ## Float-rounding model for the f32/f64 totals assertion
(`generate.rs` lines 346-347) -/

/-- Fuel-driven floor base-2 logarithm on naturals (structural recursion
so that it evaluates under kernel reduction; the fuel `n` always
suffices for input `n`). -/
def lg2F : ℕ → ℕ → ℕ
  | 0, _ => 0
  | fuel + 1, n => if n < 2 then 0 else 1 + lg2F fuel (n / 2)

/-- `⌊log₂ n⌋` for `1 ≤ n` (0 at 0). -/
def lg2 (n : ℕ) : ℕ := lg2F n n

/-- Floor of the base-2 logarithm of a positive rational. -/
def qlog2 (q : ℚ) : ℤ :=
  let n := q.num.natAbs
  let d := q.den
  let a := lg2 n
  let b := lg2 d
  if d * 2 ^ a ≤ n * 2 ^ b then (a : ℤ) - (b : ℤ)
  else (a : ℤ) - (b : ℤ) - 1

def qpow2 (e : ℤ) : ℚ :=
  if 0 ≤ e then ((2 ^ e.toNat : ℕ) : ℚ) else mkRat 1 (2 ^ (-e).toNat)

/-- Round to the nearest integer, ties to even. -/
def roundHalfEven (s : ℚ) : ℤ :=
  let n0 := ⌊s⌋
  let frac := qSub s ((n0 : ℤ) : ℚ)
  if frac < mkRat 1 2 then n0
  else if mkRat 1 2 < frac then n0 + 1
  else if n0 % 2 = 0 then n0 else n0 + 1

/-- IEEE-754 round-to-nearest-even onto a `prec`-bit significand
(normal range; the values this model is evaluated on are all normal and
far from overflow). -/
def roundPrec (prec : ℕ) (q : ℚ) : ℚ :=
  if q = 0 then 0
  else
    let ulp := qpow2 (qlog2 |q| - (prec : ℤ) + 1)
    qMul ((roundHalfEven (qDiv q ulp) : ℤ) : ℚ) ulp

/-- Rounding to `f32` (24-bit significand). -/
def roundF32 (q : ℚ) : ℚ := roundPrec 24 q

/-- Rounding to `f64` (53-bit significand). -/
def roundF64 (q : ℚ) : ℚ := roundPrec 53 q

/-- `f64` addition. -/
def add64 (a b : ℚ) : ℚ := roundF64 (qAdd a b)

/-- `f32` addition. -/
def add32 (a b : ℚ) : ℚ := roundF32 (qAdd a b)

/-- A day's `total_hours` f64 accumulator: `total_hours += *h as f64` over
the day's `Time` entries (entry hours are f32 values, converted exactly). -/
def dayHoursF (entries : List Entry) : ℚ :=
  entries.foldl
    (fun acc e =>
      match e with
      | .Time h _ => add64 acc h
      | _ => acc)
    0

/-- The per-day cap applied to the f64 day total (an exact assignment and
exact comparisons). -/
def capDayF (capDay w : ℚ) : ℚ :=
  if 0 < capDay ∧ 0 < w ∧ capDay < w then capDay else w

/-- `total_hours_counted`: f64 accumulation of the capped day totals over
the dates sorted ascending. -/
def countedF (capDay : ℚ) (store : List (Date × List Entry)) : ℚ :=
  (sortLe pairDateLeB store).foldl
    (fun acc p => add64 acc (capDayF capDay (dayHoursF p.2))) 0

/-- The `Day.hours` fields: each capped f64 day total cast to f32. -/
def dayFieldsF32 (capDay : ℚ) (store : List (Date × List Entry)) : List ℚ :=
  (sortLe pairDateLeB store).map
    (fun p => roundF32 (capDayF capDay (dayHoursF p.2)))

/-- `days.iter().map(|d| d.hours).sum::<f32>()`: f32 summation of the
`Day.hours` fields from 0.0. -/
def daysSumF32 (capDay : ℚ) (store : List (Date × List Entry)) : ℚ :=
  (dayFieldsF32 capDay store).foldl add32 0

/-- The asserted property of `generate.rs` lines 346-347: the f32 sum of
the per-day hours fields, cast (exactly) to f64, equals the f64
accumulator `total_hours_counted`. -/
def assertTotalsAgree (capDay : ℚ) (store : List (Date × List Entry)) : Prop :=
  daysSumF32 capDay store = countedF capDay store

/-- String-to-character-list helper used in claim statements. -/
def toCL (s : String) : List Char := s.data

/-- The empty (select-everything) selector. -/
def emptySel : DateSelector := ⟨[]⟩

/-- Decimal rendering of a natural number. -/
def natChars (n : ℕ) : List Char := Nat.toDigits 10 n

/-- The token `"H:M"` for a time of day. -/
def hmToken (h m : ℕ) : List Char := natChars h ++ ':' :: natChars m

/-! ## Bridge lemmas: the computable rational operations agree with the
standard field operations on `ℚ`. -/

theorem qAdd_eq (a b : ℚ) : qAdd a b = a + b := by
  have ha : ((a.den : ℚ)) ≠ 0 := Nat.cast_ne_zero.mpr a.den_nz
  have hb : ((b.den : ℚ)) ≠ 0 := Nat.cast_ne_zero.mpr b.den_nz
  rw [qAdd, Rat.mkRat_eq_div]
  conv_rhs => rw [← Rat.num_div_den a, ← Rat.num_div_den b, div_add_div _ _ ha hb]
  push_cast
  ring_nf

theorem qMul_eq (a b : ℚ) : qMul a b = a * b := by
  rw [qMul, Rat.mkRat_eq_div]
  conv_rhs => rw [← Rat.num_div_den a, ← Rat.num_div_den b, div_mul_div_comm]
  push_cast
  ring_nf

theorem qSub_eq (a b : ℚ) : qSub a b = a - b := by
  rw [qSub, qAdd_eq, sub_eq_add_neg]

theorem qInv_eq (a : ℚ) : qInv a = a⁻¹ := by
  rcases eq_or_ne a.num 0 with h0 | h0
  · have : a = 0 := by
      rwa [Rat.num_eq_zero] at h0
    subst this
    simp [qInv]
  · have hn : ((a.num : ℚ)) ≠ 0 := Int.cast_ne_zero.mpr h0
    have hna : ((a.num.natAbs : ℚ)) ≠ 0 := by
      simpa [Int.natAbs_eq_zero] using h0
    rw [qInv, Rat.mkRat_eq_div]
    conv_rhs => rw [← Rat.num_div_den a, inv_div]
    rw [div_eq_div_iff hna hn]
    push_cast [Int.cast_natAbs]
    rcases lt_trichotomy a.num 0 with h | h | h
    · rw [Int.sign_eq_neg_one_of_neg h]
      rw [abs_of_neg (show ((a.num : ℚ)) < 0 by exact_mod_cast h)]
      ring
    · exact absurd h h0
    · rw [Int.sign_eq_one_of_pos h]
      rw [abs_of_pos (show (0 : ℚ) < (a.num : ℚ) by exact_mod_cast h)]
      ring

theorem qDiv_eq (a b : ℚ) : qDiv a b = a / b := by
  rw [qDiv, qMul_eq, qInv_eq, div_eq_mul_inv]

/-! ## Sorting lemmas -/

theorem insertLe_perm {α : Type _} (le : α → α → Bool) (x : α) :
    ∀ l : List α, (insertLe le x l).Perm (x :: l)
  | [] => List.Perm.refl _
  | y :: ys => by
    rw [insertLe]
    split
    · exact List.Perm.refl _
    · exact ((insertLe_perm le x ys).cons y).trans (List.Perm.swap x y ys)

theorem sortLe_perm {α : Type _} (le : α → α → Bool) :
    ∀ l : List α, (sortLe le l).Perm l
  | [] => List.Perm.refl _
  | x :: xs =>
    (insertLe_perm le x (sortLe le xs)).trans ((sortLe_perm le xs).cons x)

theorem strLeB_true_iff (a b : String) : strLeB a b = true ↔ a ≤ b := by
  simp [strLeB]

theorem insertLe_sorted_str (x : String) :
    ∀ l : List String, l.Pairwise (· ≤ ·) →
      (insertLe strLeB x l).Pairwise (· ≤ ·)
  | [], _ => by
    rw [insertLe]
    exact List.pairwise_singleton _ _
  | y :: ys, h => by
    rw [insertLe]
    rcases List.pairwise_cons.mp h with ⟨hy, hys⟩
    split
    · rename_i hle
      refine List.pairwise_cons.mpr ⟨?_, h⟩
      intro a ha
      rcases List.mem_cons.mp ha with rfl | ha2
      · exact (strLeB_true_iff x a).mp hle
      · exact le_trans ((strLeB_true_iff x y).mp hle) (hy _ ha2)
    · rename_i hle
      have hyx : y ≤ x := le_of_not_le (fun hxy => hle ((strLeB_true_iff x y).mpr hxy))
      refine List.pairwise_cons.mpr ⟨?_, insertLe_sorted_str x ys hys⟩
      intro a ha
      have h2 := (insertLe_perm strLeB x ys).mem_iff.mp ha
      rcases List.mem_cons.mp h2 with rfl | ha2
      · exact hyx
      · exact hy _ ha2

theorem sortStrs_sorted : ∀ l : List String, (sortStrs l).Pairwise (· ≤ ·)
  | [] => List.Pairwise.nil
  | x :: xs => by
    rw [sortStrs, sortLe]
    exact insertLe_sorted_str x _ (sortStrs_sorted xs)

theorem sortStrs_eq_of_perm {l1 l2 : List String} (h : l1.Perm l2) :
    sortStrs l1 = sortStrs l2 := by
  refine List.eq_of_perm_of_sorted ?_ (sortStrs_sorted l1) (sortStrs_sorted l2)
  exact (sortLe_perm strLeB l1).trans (h.trans (sortLe_perm strLeB l2).symm)

theorem sortStrs_idem (l : List String) : sortStrs (sortStrs l) = sortStrs l :=
  sortStrs_eq_of_perm (sortLe_perm strLeB l)

/-! ## Sequence-index lemmas -/

theorem keyMax_le : ∀ (l : List (ℕ × List String)) (p : ℕ × List String), p ∈ l →
    ∃ m, keyMax l = some m ∧ p.1 ≤ m
  | [], p, hp => absurd hp (List.not_mem_nil p)
  | q :: rest, p, hp => by
    rw [keyMax]
    rcases List.mem_cons.mp hp with rfl | hp2
    · match h : keyMax rest with
      | none => exact ⟨p.1, rfl, le_refl _⟩
      | some m => exact ⟨max p.1 m, rfl, le_max_left _ _⟩
    · rcases keyMax_le rest p hp2 with ⟨m, hm, hle⟩
      rw [hm]
      exact ⟨max q.1 m, rfl, le_trans hle (le_max_right _ _)⟩

theorem find?_append_none {α : Type _} (p : α → Bool) :
    ∀ (l1 l2 : List α), l1.find? p = none → (l1 ++ l2).find? p = l2.find? p
  | [], _, _ => rfl
  | x :: xs, l2, h => by
    rw [List.cons_append]
    cases hpx : p x with
    | true =>
      rw [List.find?_cons_of_pos _ hpx] at h
      exact absurd h (by simp)
    | false =>
      have hpx2 : ¬ p x = true := by simp [hpx]
      rw [List.find?_cons_of_neg _ hpx2] at h
      rw [List.find?_cons_of_neg _ hpx2]
      exact find?_append_none p xs l2 h

theorem findSequence_eq_found {idx : SeqIndex} {D : List String} {p : ℕ × List String}
    (h : idx.sequences.find? (fun q => decide (sortStrs q.2 = sortStrs D)) = some p) :
    findSequence idx D = (p.1, idx) := by
  simp only [findSequence, h]

theorem findSequence_eq_new {idx : SeqIndex} {D : List String}
    (h : idx.sequences.find? (fun q => decide (sortStrs q.2 = sortStrs D)) = none) :
    findSequence idx D =
      (nextSeq idx.sequences,
        ⟨idx.sequences ++ [(nextSeq idx.sequences, sortStrs D)]⟩) := by
  simp only [findSequence, h]

/-- Two successive calls of `find_sequence` with the same date list return
the same number. -/
theorem findSequence_twice (idx : SeqIndex) (D : List String) :
    (findSequence (findSequence idx D).2 D).1 = (findSequence idx D).1 := by
  match h : idx.sequences.find? (fun q => decide (sortStrs q.2 = sortStrs D)) with
  | some p =>
    have h1 := findSequence_eq_found h
    rw [h1]
    rw [findSequence_eq_found h]
  | none =>
    have h1 := findSequence_eq_new h
    rw [h1]
    have h2 : ((idx.sequences ++ [(nextSeq idx.sequences, sortStrs D)]).find?
        (fun q => decide (sortStrs q.2 = sortStrs D))) =
        some (nextSeq idx.sequences, sortStrs D) := by
      rw [find?_append_none _ _ _ h]
      rw [List.find?_cons_of_pos _ (by simp [sortStrs_idem])]
    exact congrArg Prod.fst
      (@findSequence_eq_found ⟨idx.sequences ++ [(nextSeq idx.sequences, sortStrs D)]⟩ D
        (nextSeq idx.sequences, sortStrs D) h2)

/-- `find_sequence` only depends on the sorted form of its input. -/
theorem findSequence_sort_congr (idx : SeqIndex) {D E : List String}
    (h : sortStrs D = sortStrs E) : findSequence idx D = findSequence idx E := by
  rw [findSequence, findSequence, h]

/-! ## Aggregation and loader lemmas -/

theorem processDay_worked (capDay : ℚ) (entries : List Entry) :
    (processDay capDay entries).worked = (dayScan entries).hours := by
  simp only [processDay]
  split <;> rfl

theorem processDay_capped (capDay : ℚ) (entries : List Entry)
    (h1 : 0 < capDay) (h2 : capDay < (dayScan entries).hours) :
    processDay capDay entries =
      ⟨(dayScan entries).hours, capDay, (dayScan entries).fees, (dayScan entries).discounts,
        String.intercalate "; " (dayScan entries).descs ++ " (" ++
          fmtF64 (dayScan entries).hours ++ " worked, " ++ fmtF64 capDay ++ " billed)"⟩ := by
  have h0 : (0 : ℚ) < (dayScan entries).hours := lt_trans h1 h2
  simp only [processDay]
  rw [if_pos ⟨h1, h0, h2⟩]

theorem processDay_uncapped (capDay : ℚ) (entries : List Entry)
    (h : capDay = 0 ∨ (dayScan entries).hours ≤ capDay) :
    processDay capDay entries =
      ⟨(dayScan entries).hours, (dayScan entries).hours, (dayScan entries).fees,
        (dayScan entries).discounts, String.intercalate "; " (dayScan entries).descs⟩ := by
  have hc : ¬ (0 < capDay ∧ 0 < (dayScan entries).hours ∧ capDay < (dayScan entries).hours) := by
    rcases h with h0 | hle
    · rintro ⟨hpos, -, -⟩
      rw [h0] at hpos
      exact lt_irrefl 0 hpos
    · rintro ⟨-, -, hlt⟩
      exact absurd hlt (not_lt.mpr hle)
  simp only [processDay]
  rw [if_neg hc]

theorem foldl_dayStep_worked (cfg : Config) :
    ∀ (l : List (Date × List Entry)) (a : FoldAcc),
      (l.foldl (dayStepAcc cfg) a).worked =
        a.worked + (l.map (fun p => (dayScan p.2).hours)).sum
  | [], a => by simp
  | p :: l, a => by
    rw [List.foldl_cons, foldl_dayStep_worked cfg l, List.map_cons, List.sum_cons]
    show qAdd a.worked (processDay cfg.capDay p.2).worked + _ = _
    rw [qAdd_eq, processDay_worked]
    ring

theorem aggregate_worked (cfg : Config) (store : List (Date × List Entry)) :
    (aggregate cfg store).totalHoursWorked =
      (store.map (fun p => (dayScan p.2).hours)).sum := by
  have h1 : (aggregate cfg store).totalHoursWorked =
      ((sortLe pairDateLeB store).foldl (dayStepAcc cfg) ⟨0, 0, 0, 0, []⟩).worked := rfl
  rw [h1, foldl_dayStep_worked]
  show (0 : ℚ) + _ = _
  rw [zero_add]
  exact ((sortLe_perm pairDateLeB store).map _).sum_eq

theorem loadStep_skip (sel : DateSelector) (st : LoadState) (l : List Char)
    (h : isSkippableLine l = true) : loadStep sel st l = st := by
  simp [loadStep, h]

theorem loadLines_skip_insert (sel : DateSelector) (pre post : List (List Char))
    (l : List Char) (h : isSkippableLine l = true) :
    loadLines sel (pre ++ l :: post) = loadLines sel (pre ++ post) := by
  unfold loadLines
  rw [List.foldl_append, List.foldl_append, List.foldl_cons, loadStep_skip sel _ l h]

/-! ## Claim theorems (first group) -/

def c9Store : List (Date × List Entry) :=
  [(⟨2025, 1, 1⟩, [.Time (roundF32 (mkRat 1 10)) "a", .Time (roundF32 (mkRat 1 5)) "b"])]

/-- Claim C1: loading a ledger with date line 2025.01.01 followed by
"8h = Dev" and "-2h = Correction" and aggregating at hourly rate 100
yields day hours 6 and day cost 600 for that date; the negative-hours
correction line parses into a Time entry with hours -2 rather than
being rejected. -/
theorem claim_C1_negative_correction_scenario :
    parseLine (toCL "-2h = Correction") = .ok (.Time (-2) "Correction") ∧
    (loadLines emptySel [toCL "2025.01.01", toCL "8h = Dev", toCL "-2h = Correction"]).buckets =
      [(⟨2025, 1, 1⟩, [.Time 8 "Dev", .Time (-2) "Correction"])] ∧
    (aggregate ⟨100, 0, 0, 0⟩
        (loadLines emptySel
          [toCL "2025.01.01", toCL "8h = Dev", toCL "-2h = Correction"]).buckets).days =
      [⟨⟨2025, 1, 1⟩, 6, 600, "Dev; Correction"⟩] := by
  decide

/-- Claim C2: when a day's summed Time hours W exceed a configured
per-day cap C > 0, the billed hours for the day equal exactly C and the
description is annotated with "(W worked, C billed)", while the uncapped
total_hours_worked still sums the full per-day W values; with W below
the cap or the cap disabled, billed day hours equal W.  Cap 8 on a 10h
day yields billed hours 8 and annotation "(10 worked, 8 billed)". -/
theorem claim_C2_per_day_cap :
    (∀ (capDay : ℚ) (entries : List Entry), 0 < capDay → capDay < (dayScan entries).hours →
      (processDay capDay entries).billed = capDay ∧
      (processDay capDay entries).worked = (dayScan entries).hours ∧
      (processDay capDay entries).desc =
        String.intercalate "; " (dayScan entries).descs ++ " (" ++
          fmtF64 (dayScan entries).hours ++ " worked, " ++ fmtF64 capDay ++ " billed)") ∧
    (∀ (capDay : ℚ) (entries : List Entry),
      capDay = 0 ∨ (dayScan entries).hours ≤ capDay →
      (processDay capDay entries).billed = (dayScan entries).hours) ∧
    (∀ (cfg : Config) (store : List (Date × List Entry)),
      (aggregate cfg store).totalHoursWorked =
        (store.map (fun p => (dayScan p.2).hours)).sum) ∧
    (aggregate ⟨100, 8, 0, 0⟩ [(⟨2025, 1, 1⟩, [.Time 10 "X"])]).days =
      [⟨⟨2025, 1, 1⟩, 8, 800, "X (10 worked, 8 billed)"⟩] ∧
    (aggregate ⟨100, 8, 0, 0⟩ [(⟨2025, 1, 1⟩, [.Time 10 "X"])]).totalHoursWorked = 10 := by
  refine ⟨?_, ?_, fun cfg store => aggregate_worked cfg store, by decide, by decide⟩
  · intro capDay entries h1 h2
    rw [processDay_capped capDay entries h1 h2]
    exact ⟨rfl, rfl, rfl⟩
  · intro capDay entries h
    rw [processDay_uncapped capDay entries h]

/-- Witness for claim C2 at cap 8 and a single 10-hour day. -/
theorem claim_C2_witness :
    (processDay 8 [Entry.Time 10 "X"]).billed = 8 ∧
    (processDay 8 [Entry.Time 10 "X"]).worked = (dayScan [Entry.Time 10 "X"]).hours := by
  have h := claim_C2_per_day_cap.1 8 [Entry.Time 10 "X"] (by decide) (by decide)
  exact ⟨h.1, h.2.1⟩

/-- Claim C3: with per-invoice cap K > 0 and counted hours T > K,
overage_hours = T - K, overage_discount = -(overage_hours * rate),
total_hours_billed = K and billed_amount = K * rate; with the cap
disabled (0) or T below it, overage figures are zero and
total_hours_billed = T. -/
theorem claim_C3_per_invoice_overage :
    ∀ (cfg : Config) (store : List (Date × List Entry)),
      (0 < cfg.capInvoice → cfg.capInvoice < (aggregate cfg store).totalHoursCounted →
        (aggregate cfg store).overageHours =
          (aggregate cfg store).totalHoursCounted - cfg.capInvoice ∧
        (aggregate cfg store).overageDiscount =
          -((aggregate cfg store).overageHours * cfg.hourlyRate) ∧
        (aggregate cfg store).totalHoursBilled = cfg.capInvoice ∧
        (aggregate cfg store).billedAmount = cfg.capInvoice * cfg.hourlyRate) ∧
      ((cfg.capInvoice = 0 ∨ (aggregate cfg store).totalHoursCounted ≤ cfg.capInvoice) →
        (aggregate cfg store).overageHours = 0 ∧
        (aggregate cfg store).overageDiscount = 0 ∧
        (aggregate cfg store).totalHoursBilled = (aggregate cfg store).totalHoursCounted) := by
  intro cfg store
  have hcounted : (aggregate cfg store).totalHoursCounted = (foldDays cfg store).counted := rfl
  have hover : (aggregate cfg store).overageHours =
      if 0 < cfg.capInvoice ∧ cfg.capInvoice < (foldDays cfg store).counted then
        qSub (foldDays cfg store).counted cfg.capInvoice else 0 := rfl
  have hoverd : (aggregate cfg store).overageDiscount =
      if 0 < cfg.capInvoice ∧ cfg.capInvoice < (foldDays cfg store).counted then
        -(qMul (qSub (foldDays cfg store).counted cfg.capInvoice) cfg.hourlyRate) else 0 := rfl
  have hbilled : (aggregate cfg store).totalHoursBilled =
      qSub (foldDays cfg store).counted (aggregate cfg store).overageHours := rfl
  have hbamt : (aggregate cfg store).billedAmount =
      qMul (aggregate cfg store).totalHoursBilled cfg.hourlyRate := rfl
  constructor
  · intro h1 h2
    rw [hcounted] at h2
    have hc : 0 < cfg.capInvoice ∧ cfg.capInvoice < (foldDays cfg store).counted := ⟨h1, h2⟩
    have e1 : (aggregate cfg store).overageHours =
        (foldDays cfg store).counted - cfg.capInvoice := by
      rw [hover, if_pos hc, qSub_eq]
    refine ⟨?_, ?_, ?_, ?_⟩
    · rw [e1, hcounted]
    · rw [hoverd, if_pos hc, e1, qMul_eq, qSub_eq]
    · rw [hbilled, qSub_eq, e1]
      ring
    · rw [hbamt, qMul_eq, hbilled, qSub_eq, e1]
      ring
  · intro h
    have hc : ¬ (0 < cfg.capInvoice ∧ cfg.capInvoice < (foldDays cfg store).counted) := by
      rcases h with h0 | hle
      · rintro ⟨hpos, -⟩
        rw [h0] at hpos
        exact lt_irrefl 0 hpos
      · rw [hcounted] at hle
        rintro ⟨-, hlt⟩
        exact absurd hlt (not_lt.mpr hle)
    refine ⟨?_, ?_, ?_⟩
    · rw [hover, if_neg hc]
    · rw [hoverd, if_neg hc]
    · rw [hbilled, hover, if_neg hc, qSub_eq, hcounted]
      ring

/-- Witness for claim C3 at cap 5 and an 8-hour store. -/
theorem claim_C3_witness :
    (aggregate ⟨100, 0, 5, 0⟩ [(⟨2025, 1, 1⟩, [.Time 8 "x"])]).overageHours =
      (aggregate ⟨100, 0, 5, 0⟩ [(⟨2025, 1, 1⟩, [.Time 8 "x"])]).totalHoursCounted - 5 ∧
    (aggregate ⟨100, 0, 5, 0⟩ [(⟨2025, 1, 1⟩, [.Time 8 "x"])]).totalHoursBilled = 5 := by
  have h := (claim_C3_per_invoice_overage ⟨100, 0, 5, 0⟩
    [(⟨2025, 1, 1⟩, [.Time 8 "x"])]).1 (by decide) (by decide)
  exact ⟨h.1, h.2.2.1⟩

/-- Claim C5: a line that trims to empty or starts with `#` or `//` is
skipped entirely by the ledger-store scan: the load state (current date,
buckets and warnings) is unchanged, and deleting such a line anywhere in
a file leaves the whole load result unchanged. -/
theorem claim_C5_comment_lines_skipped :
    (∀ (sel : DateSelector) (st : LoadState) (l : List Char),
      isSkippableLine l = true → loadStep sel st l = st) ∧
    (∀ (sel : DateSelector) (pre post : List (List Char)) (l : List Char),
      isSkippableLine l = true →
      loadLines sel (pre ++ l :: post) = loadLines sel (pre ++ post)) :=
  ⟨loadStep_skip, loadLines_skip_insert⟩

/-- Witness for claim C5 on a `#` comment and a `//` comment line. -/
theorem claim_C5_witness :
    loadStep emptySel ⟨none, [], []⟩ (toCL "# note") = ⟨none, [], []⟩ ∧
    loadLines emptySel [toCL "2025.01.01", toCL "// c", toCL "8h = A"] =
      loadLines emptySel [toCL "2025.01.01", toCL "8h = A"] :=
  ⟨claim_C5_comment_lines_skipped.1 emptySel ⟨none, [], []⟩ (toCL "# note") (by decide),
   claim_C5_comment_lines_skipped.2 emptySel [toCL "2025.01.01"] [toCL "8h = A"]
     (toCL "// c") (by decide)⟩

/-- Claim C6: find_sequence is an idempotent upsert keyed by the sorted
date set: two successive calls agree, and a date set not previously
registered is allocated max(existing keys) + 1 (or 1 when empty), a
number different from every previously registered one. -/
theorem claim_C6_find_sequence_upsert :
    ∀ (idx : SeqIndex) (D : List String),
      (findSequence (findSequence idx D).2 D).1 = (findSequence idx D).1 ∧
      ((∀ p ∈ idx.sequences, sortStrs p.2 ≠ sortStrs D) →
        (findSequence idx D).1 = nextSeq idx.sequences ∧
        ∀ p ∈ idx.sequences, p.1 ≠ (findSequence idx D).1) := by
  intro idx D
  refine ⟨findSequence_twice idx D, ?_⟩
  intro hnone
  have hfind : idx.sequences.find? (fun q => decide (sortStrs q.2 = sortStrs D)) = none := by
    rw [List.find?_eq_none]
    intro p hp
    simp [hnone p hp]
  have h1 := findSequence_eq_new hfind
  constructor
  · rw [h1]
  · intro p hp
    rw [h1]
    rcases keyMax_le idx.sequences p hp with ⟨mx, hmx, hle⟩
    show p.1 ≠ nextSeq idx.sequences
    rw [nextSeq, hmx]
    show p.1 ≠ mx + 1
    omega

/-- Witness for claim C6 on the empty index. -/
theorem claim_C6_witness :
    (findSequence (findSequence ⟨[]⟩ ["2025.01"]).2 ["2025.01"]).1 =
      (findSequence ⟨[]⟩ ["2025.01"]).1 ∧
    (findSequence ⟨[]⟩ ["2025.01"]).1 = 1 := by
  have h := claim_C6_find_sequence_upsert ⟨[]⟩ ["2025.01"]
  exact ⟨h.1, (h.2 (by simp)).1⟩

/-- Claim C9 evaluated at a failing input: a single day carrying the f32
hours parsed from "0.1h" and "0.2h" makes the f32 sum of the per-day
hours fields differ from the f64 accumulator total_hours_counted, so the
assert at generate.rs:347 fails (f32 sum 40265320/2^27 versus f64 total
40265319/2^27). -/
theorem claim_C9_totals_assert_fails :
    parseTimeSpec (toCL "0.1h") = .ok (mkRat 1 10) ∧
    parseTimeSpec (toCL "0.2h") = .ok (mkRat 1 5) ∧
    roundF32 (mkRat 1 10) = mkRat 13421773 134217728 ∧
    roundF32 (mkRat 1 5) = mkRat 13421773 67108864 ∧
    countedF 0 c9Store = mkRat 40265319 134217728 ∧
    daysSumF32 0 c9Store = mkRat 40265320 134217728 ∧
    ¬ assertTotalsAgree 0 c9Store := by
  refine ⟨by decide, by decide, by decide, by decide, by decide, by decide, ?_⟩
  show ¬ (daysSumF32 0 c9Store = countedF 0 c9Store)
  decide

/-- Claim C10: find_sequence is insensitive to the order of its date
list: for a permutation of the first call's dates (and at most one
stored entry matching the sorted form), a subsequent call returns the
same sequence number. -/
theorem claim_C10_perm_insensitive :
    ∀ (idx : SeqIndex) (D E : List String), D.Perm E →
      (idx.sequences.filter (fun p => decide (sortStrs p.2 = sortStrs D))).length ≤ 1 →
      (findSequence (findSequence idx D).2 E).1 = (findSequence idx D).1 := by
  intro idx D E hperm _hcount
  have hs : sortStrs E = sortStrs D := sortStrs_eq_of_perm hperm.symm
  rw [findSequence_sort_congr _ hs]
  exact findSequence_twice idx D

/-- Witness for claim C10 on the empty index and a two-date swap. -/
theorem claim_C10_witness :
    (findSequence (findSequence ⟨[]⟩ ["b", "a"]).2 ["a", "b"]).1 =
      (findSequence ⟨[]⟩ ["b", "a"]).1 :=
  claim_C10_perm_insensitive ⟨[]⟩ ["b", "a"] ["a", "b"]
    (List.Perm.swap "a" "b" []) (by decide)

/-! ## Claim C4 theorems -/

/-- Claim C4 counterexample: the claim predicts "0-24" yields 24.0, but
`parse_time_spec` returns 0.0 there: the raw subtraction from a 00:00
start is zero, not negative, so the midnight wraparound does not fire. -/
theorem claim_C4_counterexample :
    parseTimeSpec (toCL "0-24") = .ok 0 ∧ ¬ parseTimeSpec (toCL "0-24") = .ok 24 := by
  constructor
  · decide
  · decide

set_option maxHeartbeats 4000000 in
/-- Claim C4 (amended): an end token of literally "24" or "24:00" is
treated as end-of-day midnight, and for every valid start time strictly
after midnight the range parses to the hours remaining until end of day
(so "22-24" yields 2.0), both directly and through the ledger-store load
path; for a start of exactly midnight the raw subtraction is zero, not
negative, so "0-24" yields 0.0 rather than 24.0. -/
theorem claim_C4_midnight_end :
    (∀ h : Fin 24, ∀ m : Fin 60, 0 < 60 * h.val + m.val →
      parseTimeSpec (hmToken h.val m.val ++ toCL "-24") =
        .ok ((((1440 - (60 * h.val + m.val) : ℤ)) : ℚ) / 60) ∧
      parseTimeSpec (hmToken h.val m.val ++ toCL "-24:00") =
        .ok ((((1440 - (60 * h.val + m.val) : ℤ)) : ℚ) / 60)) ∧
    parseTimeSpec (toCL "22-24") = .ok 2 ∧
    parseTimeSpec (toCL "0-24") = .ok 0 ∧
    (loadLines emptySel [toCL "2025.01.01", toCL "22-24 = Late"]).buckets =
      [(⟨2025, 1, 1⟩, [.Time 2 "Late"])] := by
  refine ⟨?_, by decide, by decide, by decide⟩
  have tw : ∀ h : Fin 24, ∀ m : Fin 60, 0 < 60 * h.val + m.val →
      parseTimeSpec (hmToken h.val m.val ++ toCL "-24") =
        .ok (qDiv (((1440 - (60 * h.val + m.val) : ℤ)) : ℚ) 60) ∧
      parseTimeSpec (hmToken h.val m.val ++ toCL "-24:00") =
        .ok (qDiv (((1440 - (60 * h.val + m.val) : ℤ)) : ℚ) 60) := by
    decide
  intro h m hpos
  rcases tw h m hpos with ⟨t1, t2⟩
  rw [qDiv_eq] at t1 t2
  exact ⟨t1, t2⟩

/-- Witness for claim C4 at start time 22:00. -/
theorem claim_C4_witness :
    0 < 60 * (22 : ℕ) + 0 ∧
    parseTimeSpec (hmToken 22 0 ++ toCL "-24") =
      .ok ((((1440 - (60 * 22 + 0) : ℤ)) : ℚ) / 60) :=
  ⟨by decide,
    (claim_C4_midnight_end.1 ⟨22, by decide⟩ ⟨0, by decide⟩ (by decide)).1⟩

/-! ## Claim C7 and C8 theorems -/

theorem parseNatDigits_digits {l : List Char} {n : ℕ} (h : parseNatDigits l = some n) :
    ∀ c ∈ l, c.isDigit = true := by
  unfold parseNatDigits at h
  split at h
  · rename_i hc
    intro c hcl
    exact List.all_eq_true.mp hc.2 c hcl
  · exact absurd h (by simp)

theorem parseI32_chars {l : List Char} {y : ℤ} (h : parseI32 l = some y) :
    ∀ c ∈ l, c = '-' ∨ c = '+' ∨ c.isDigit = true := by
  unfold parseI32 at h
  split at h
  · rename_i r
    intro c hc
    rcases List.mem_cons.mp hc with rfl | hcr
    · exact Or.inl rfl
    · split at h
      · rename_i n hn
        exact Or.inr (Or.inr (parseNatDigits_digits hn c hcr))
      · exact absurd h (by simp)
  · rename_i r
    intro c hc
    rcases List.mem_cons.mp hc with rfl | hcr
    · exact Or.inr (Or.inl rfl)
    · split at h
      · rename_i n hn
        exact Or.inr (Or.inr (parseNatDigits_digits hn c hcr))
      · exact absurd h (by simp)
  · intro c hc
    split at h
    · rename_i n hn
      exact Or.inr (Or.inr (parseNatDigits_digits hn c hc))
    · exact absurd h (by simp)

theorem parseU32_chars {l : List Char} {n : ℕ} (h : parseU32 l = some n) :
    ∀ c ∈ l, c = '+' ∨ c.isDigit = true := by
  unfold parseU32 at h
  split at h
  · rename_i n2 hn2
    split at hn2
    · rename_i r
      intro c hc
      rcases List.mem_cons.mp hc with rfl | hcr
      · exact Or.inl rfl
      · exact Or.inr (parseNatDigits_digits hn2 c hcr)
    · intro c hc
      exact Or.inr (parseNatDigits_digits hn2 c hc)
  · exact absurd h (by simp)

theorem parseI32_no_dot {l : List Char} {y : ℤ} (h : parseI32 l = some y) : '.' ∉ l := by
  intro hmem
  rcases parseI32_chars h '.' hmem with h1 | h1 | h1
  · exact absurd h1 (by decide)
  · exact absurd h1 (by decide)
  · exact absurd h1 (by decide)

theorem parseU32_no_dot {l : List Char} {n : ℕ} (h : parseU32 l = some n) : '.' ∉ l := by
  intro hmem
  rcases parseU32_chars h '.' hmem with h1 | h1
  · exact absurd h1 (by decide)
  · exact absurd h1 (by decide)

theorem splitCh_ne_nil (c : Char) : ∀ l : List Char, splitCh c l ≠ []
  | [] => by simp [splitCh]
  | x :: xs => by
    rw [splitCh]
    rcases hsp : splitCh c xs with _ | ⟨p, ps⟩
    · simp
    · by_cases hxc : x = c <;> simp [hxc]

theorem splitCh_of_notMem {c : Char} : ∀ {l : List Char}, c ∉ l → splitCh c l = [l]
  | [], _ => rfl
  | x :: xs, h => by
    have hx : ¬ x = c := fun e => h (e ▸ List.mem_cons_self x xs)
    have hxs : c ∉ xs := fun e => h (List.mem_cons_of_mem x e)
    rw [splitCh, splitCh_of_notMem hxs]
    simp [hx]

theorem splitCh_append {c : Char} :
    ∀ {a : List Char} (b : List Char), c ∉ a →
      splitCh c (a ++ c :: b) = a :: splitCh c b
  | [], b, _ => by
    rcases List.exists_cons_of_ne_nil (splitCh_ne_nil c b) with ⟨p, ps, hps⟩
    rw [List.nil_append, splitCh, hps]
    simp
  | x :: a2, b, h => by
    have hx : ¬ x = c := fun e => h (e ▸ List.mem_cons_self x a2)
    have ha2 : c ∉ a2 := fun e => h (List.mem_cons_of_mem x e)
    rw [List.cons_append, splitCh, splitCh_append b ha2]
    simp [hx]

theorem daysInMonth_ge28 (y : ℤ) {m : ℕ} (h1 : 1 ≤ m) (h2 : m ≤ 12) :
    28 ≤ daysInMonth y m := by
  interval_cases m <;> simp [daysInMonth]
  split <;> norm_num

theorem lastDayOfMonth_eq (y : ℤ) {m : ℕ} (h1 : 1 ≤ m) (h2 : m ≤ 12) :
    lastDayOfMonth y m = ⟨y, m, daysInMonth y m⟩ := by
  rcases eq_or_ne m 12 with rfl | hne
  · simp [lastDayOfMonth, daysInMonth]
  · rw [lastDayOfMonth, if_neg hne, predDate]
    have h11 : ¬ (1 : ℕ) < 1 := by norm_num
    rw [if_neg h11, if_pos (by omega : 1 < m + 1)]
    simp


/-- Claim C7: for every valid year-month specifier the parsed range
starts on the first of the month and ends on its last calendar day
(leap Februaries included: 2024.02 ends on the 29th, 2023.02 on the
28th), while a month outside 1-12 or an invalid calendar date is an
error. -/
theorem claim_C7_month_range :
    (∀ (y : ℤ) (m : ℕ) (sy sm : List Char),
      parseI32 sy = some y → parseU32 sm = some m →
      1 ≤ m → m ≤ 12 → minYear ≤ y → y ≤ maxYear →
      parseSpecifierToRange (sy ++ '.' :: sm) =
        .ok ⟨⟨y, m, 1⟩, ⟨y, m, daysInMonth y m⟩⟩) ∧
    (∀ (y : ℤ) (m : ℕ) (sy sm : List Char),
      parseI32 sy = some y → parseU32 sm = some m → (m = 0 ∨ 12 < m) →
      isErr (parseSpecifierToRange (sy ++ '.' :: sm)) = true) ∧
    parseSpecifierToRange (toCL "2024.02") = .ok ⟨⟨2024, 2, 1⟩, ⟨2024, 2, 29⟩⟩ ∧
    parseSpecifierToRange (toCL "2023.02") = .ok ⟨⟨2023, 2, 1⟩, ⟨2023, 2, 28⟩⟩ ∧
    isErr (parseSpecifierToRange (toCL "2023.13")) = true ∧
    isErr (parseSpecifierToRange (toCL "2023.02.30")) = true := by
  refine ⟨?_, ?_, by decide, by decide, by decide, by decide⟩
  · intro y m sy sm hy hm hm1 hm2 hy1 hy2
    have hsplit : splitCh '.' (sy ++ '.' :: sm) = [sy, sm] := by
      rw [splitCh_append sm (parseI32_no_dot hy), splitCh_of_notMem (parseU32_no_dot hm)]
    have hday : 1 ≤ daysInMonth y m := le_trans (by norm_num) (daysInMonth_ge28 y hm1 hm2)
    have hval : fromYmd? y m 1 = some ⟨y, m, 1⟩ := by
      unfold fromYmd?
      rw [if_pos ⟨hy1, hy2, hm1, hm2, le_refl 1, hday⟩]
    unfold parseSpecifierToRange
    rw [hsplit]
    simp only [hy, hm, hval]
    rw [if_neg (not_not_intro ⟨hm1, hm2⟩), lastDayOfMonth_eq y hm1 hm2]
  · intro y m sy sm hy hm hm12
    have hsplit : splitCh '.' (sy ++ '.' :: sm) = [sy, sm] := by
      rw [splitCh_append sm (parseI32_no_dot hy), splitCh_of_notMem (parseU32_no_dot hm)]
    unfold parseSpecifierToRange
    rw [hsplit]
    simp only [hy, hm]
    rw [if_pos (by omega : ¬ (1 ≤ m ∧ m ≤ 12))]
    rfl

/-- Witness for claim C7 on the leap specifier 2024.02. -/
theorem claim_C7_witness :
    parseI32 (toCL "2024") = some 2024 ∧ parseU32 (toCL "02") = some 2 ∧
    parseSpecifierToRange (toCL "2024" ++ '.' :: toCL "02") =
      .ok ⟨⟨2024, 2, 1⟩, ⟨2024, 2, daysInMonth 2024 2⟩⟩ :=
  ⟨by decide, by decide,
    claim_C7_month_range.1 2024 2 (toCL "2024") (toCL "02") (by decide) (by decide)
      (by decide) (by decide) (by decide) (by decide)⟩


/-- Claim C8: an argument containing a dash splits at its first dash
into two specifiers combined as {start: left.start, end: right.end},
and errors exactly when a side fails to parse or the combined start is
strictly after the end. -/
theorem claim_C8_range_argument :
    ∀ (l a b : List Char), splitOnceCh '-' l = some (a, b) →
      ((∀ ra rb, parseSpecifierToRange a = .ok ra → parseSpecifierToRange b = .ok rb →
          dateLtB rb.stop ra.start = false →
          parseDateArg l = .ok ⟨ra.start, rb.stop⟩) ∧
       (isErr (parseDateArg l) = true ↔
          isErr (parseSpecifierToRange a) = true ∨
          isErr (parseSpecifierToRange b) = true ∨
          (∃ ra rb, parseSpecifierToRange a = .ok ra ∧ parseSpecifierToRange b = .ok rb ∧
            dateLtB rb.stop ra.start = true))) := by
  intro l a b hsplit
  have hd : parseDateArg l =
      (match parseSpecifierToRange a with
       | .error e => .error e
       | .ok ra =>
         match parseSpecifierToRange b with
         | .error e => .error e
         | .ok rb =>
           if dateLtB rb.stop ra.start then .error "Start date after end date"
           else .ok ⟨ra.start, rb.stop⟩) := by
    unfold parseDateArg
    rw [hsplit]
  constructor
  · intro ra rb hra hrb hlt
    rw [hd]
    simp only [hra, hrb]
    rw [if_neg (by simp [hlt])]
  · rw [hd]
    cases h1 : parseSpecifierToRange a with
    | error e => simp [isErr]
    | ok ra =>
      cases h2 : parseSpecifierToRange b with
      | error e => simp [isErr]
      | ok rb =>
        by_cases hlt : dateLtB rb.stop ra.start = true
        · simp [isErr, hlt]
        · have hlt2 : dateLtB rb.stop ra.start = false := by
            revert hlt
            cases dateLtB rb.stop ra.start <;> simp
          simp [isErr, hlt2]

/-- Witness for claim C8 on the range 2023.01-2023.03. -/
theorem claim_C8_witness :
    splitOnceCh '-' (toCL "2023.01-2023.03") = some (toCL "2023.01", toCL "2023.03") ∧
    parseDateArg (toCL "2023.01-2023.03") =
      .ok ⟨⟨2023, 1, 1⟩, ⟨2023, 3, 31⟩⟩ := by
  refine ⟨by decide, ?_⟩
  have h := (claim_C8_range_argument (toCL "2023.01-2023.03") (toCL "2023.01")
    (toCL "2023.03") (by decide)).1 ⟨⟨2023, 1, 1⟩, ⟨2023, 1, 31⟩⟩
    ⟨⟨2023, 3, 1⟩, ⟨2023, 3, 31⟩⟩ (by decide) (by decide) (by decide)
  exact h

end CLInvoice
